import Mathlib

/-!
Shallow embedding of the brainfuck compiler / optimizer / interpreter
(src/main.rs) together with theorems about the behaviour its
specification describes.

Machine integers are embedded as Nat / Int with explicit modular
reductions where the source relies on wraparound; fallible operations
(paths whose Rust original aborts the process or panics) return
Option / Except values.
-/

/-- Tape length, `const MEMORY_SIZE: usize = 30_000`. -/
def MEMORY_SIZE : Nat := 30000

/-- Embedding of `usize::checked_add_signed(dp, v)` for a data pointer that
is far below `usize::MAX`: the addition fails exactly when the signed sum
is negative (the upper overflow of `usize` is unreachable for
`dp < 30000` and an `isize` delta, see the comment in the source). -/
def checked_add_signed (dp : Nat) (v : Int) : Option Nat :=
  if 0 ≤ (dp : Int) + v then some ((dp : Int) + v).toNat else none

/-- Embedding of the `Token::Move(v)` arm of `Interpreter::run`.
`none` models the debug-mode panic of the Nat subtraction
`MEMORY_SIZE - new_dp` in the underflow branch when `new_dp` exceeds
`MEMORY_SIZE`. The overflow branch subtracts `MEMORY_SIZE` once, exactly
as the source does. -/
def moveDp (dp : Nat) (v : Int) : Option Nat :=
  match checked_add_signed dp v with
  | some new_dp =>
      some (if MEMORY_SIZE ≤ new_dp then new_dp - MEMORY_SIZE else new_dp)
  | none =>
      -- let v = -v as usize; let new_dp = v - self.dp;
      -- self.dp = MEMORY_SIZE - new_dp
      let v' := (-v).toNat
      let new_dp := v' - dp
      if new_dp ≤ MEMORY_SIZE then some (MEMORY_SIZE - new_dp) else none

/-- Embedding of the Rust cast `v as i8`: twos-complement truncation of a
signed integer to eight bits. -/
def as_i8 (v : Int) : Int :=
  let r := v % 256
  if r < 128 then r else r - 256

/-- Embedding of `u8::wrapping_add_signed`: add a signed byte to an
unsigned byte with wraparound modulo 256. -/
def wrapping_add_signed (c : Nat) (v : Int) : Nat :=
  (((c : Int) + v) % 256).toNat

/-- Embedding of the `Token::IncValue(v)` arm of `Interpreter::run`:
`self.read_memory().wrapping_add_signed(*v as i8)`. -/
def incValue (c : Nat) (v : Int) : Nat :=
  wrapping_add_signed c (as_i8 v)

/-- UTF-8 encoding of a Unicode code point, as the Rust formatting machinery
emits when a `char` is printed with `print!("{}", c)`. -/
def utf8Encode (n : Nat) : List Nat :=
  if n < 128 then [n]
  else if n < 2048 then [192 + n / 64, 128 + n % 64]
  else if n < 65536 then [224 + n / 4096, 128 + n / 64 % 64, 128 + n % 64]
  else [240 + n / 262144, 128 + n / 4096 % 64, 128 + n / 64 % 64, 128 + n % 64]

/-- Embedding of the `Token::Output` arm of `Interpreter::run`:
`print!("{}", self.read_memory() as char)` writes to stdout the UTF-8
encoding of the cell value read as a code point. -/
def outputBytes (cell : Nat) : List Nat :=
  utf8Encode cell

/-- Embedding of `read_input`: the one-byte buffer starts as `[0]`, the
pending output is flushed (`?` propagates a flush failure), then one read
is attempted (`?` propagates a read failure) and `input[0]` is returned.
`readRes` carries the bytes the read placed into the buffer, so `ok []`
is an end-of-input read of zero bytes; the payload type of an `io` error
is opaque, so it is a type parameter here. -/
def read_input {E : Type} (flushRes : Except E Unit)
    (readRes : Except E (List Nat)) : Except E Nat :=
  match flushRes with
  | .error e => .error e
  | .ok _ =>
    match readRes with
    | .error e => .error e
    | .ok data =>
      .ok (match data with
           | [] => 0
           | b :: _ => b)

/-- The interpreter state: tape and data pointer. -/
structure Interp where
  memory : List Nat
  dp : Nat

/-- Embedding of the `Token::Input` arm of `Interpreter::run`: the result
of `read_input` is stored into the current cell, and an error aborts the
run (the source exits the process with a runtime-error diagnostic). -/
def runInput {E : Type} (st : Interp) (flushRes : Except E Unit)
    (readRes : Except E (List Nat)) : Except E Interp :=
  match read_input flushRes readRes with
  | .ok data => .ok ⟨st.memory.set st.dp data, st.dp⟩
  | .error e => .error e

/-- The instruction tree, `enum Token`. -/
inductive Token where
  | output : Token
  | input : Token
  | move : Int → Token
  | incValue : Int → Token
  | loop : List Token → Token

/-- Worker of `optimize`: the Rust loop over the input tokens with the
output vector `optimized` kept head-first (the list head is the last
element of the vector, so `last()` is the head, `pop` is the tail and `push` is
cons); the finished vector is reversed back by `optimize`. -/
def optGo : List Token → List Token → List Token
  | [], optimized => optimized
  | Token.loop sub :: rest, optimized =>
      optGo rest (Token.loop ((optGo sub []).reverse) :: optimized)
  | t :: rest, optimized =>
      match optimized, t with
      | Token.incValue n :: accRest, Token.incValue v =>
          optGo rest (Token.incValue (n + v) :: accRest)
      | Token.move n :: accRest, Token.move v =>
          optGo rest (Token.move (n + v) :: accRest)
      | _, _ => optGo rest (t :: optimized)
termination_by ts _ => sizeOf ts
decreasing_by all_goals simp_wf <;> omega

/-- Embedding of `optimize`. -/
def optimize (tokens : List Token) : List Token :=
  (optGo tokens []).reverse

/-- Whether the peephole pass would fold these two adjacent tokens. -/
def mergeable : Token → Token → Bool
  | Token.incValue _, Token.incValue _ => true
  | Token.move _, Token.move _ => true
  | _, _ => false

/-- No two adjacent tokens of the list are mergeable. -/
def noMerge : List Token → Bool
  | t1 :: t2 :: rest => !mergeable t1 t2 && noMerge (t2 :: rest)
  | _ => true

/-- Every loop body of the tree, recursively, is fully folded. -/
def bodiesOpt : List Token → Bool
  | [] => true
  | Token.loop sub :: rest => noMerge sub && bodiesOpt sub && bodiesOpt rest
  | _ :: rest => bodiesOpt rest
termination_by ts => sizeOf ts
decreasing_by all_goals simp_wf <;> omega

/-- A single optimizer rewrite: fold two adjacent `IncValue`, fold two
adjacent `Move`, or rewrite inside a loop body. -/
inductive MStep : List Token → List Token → Prop where
  | inc (A B : List Token) (n v : Int) :
      MStep (A ++ Token.incValue n :: Token.incValue v :: B)
            (A ++ Token.incValue (n + v) :: B)
  | mv (A B : List Token) (n v : Int) :
      MStep (A ++ Token.move n :: Token.move v :: B)
            (A ++ Token.move (n + v) :: B)
  | inLoop (A B sub sub' : List Token) :
      MStep sub sub' → MStep (A ++ Token.loop sub :: B) (A ++ Token.loop sub' :: B)

/-- The skeleton of a tree: the `Output` / `Input` / `Loop` instructions in
order, at every nesting level, with arithmetic instructions erased. -/
inductive Skel where
  | out : Skel
  | inp : Skel
  | lp : List Skel → Skel

/-- Skeleton extraction. -/
def skeleton : List Token → List Skel
  | [] => []
  | Token.output :: rest => Skel.out :: skeleton rest
  | Token.input :: rest => Skel.inp :: skeleton rest
  | Token.loop sub :: rest => Skel.lp (skeleton sub) :: skeleton rest
  | Token.move _ :: rest => skeleton rest
  | Token.incValue _ :: rest => skeleton rest
termination_by ts => sizeOf ts
decreasing_by all_goals simp_wf <;> omega

/-- The kind of one instruction, with magnitudes erased but every
instruction kept, recursing into loop bodies. -/
inductive Kind where
  | kOut : Kind
  | kInp : Kind
  | kMv : Kind
  | kInc : Kind
  | kLp : List Kind → Kind

/-- Kind of every instruction of a tree, in order. -/
def kinds : List Token → List Kind
  | [] => []
  | Token.output :: rest => Kind.kOut :: kinds rest
  | Token.input :: rest => Kind.kInp :: kinds rest
  | Token.move _ :: rest => Kind.kMv :: kinds rest
  | Token.incValue _ :: rest => Kind.kInc :: kinds rest
  | Token.loop sub :: rest => Kind.kLp (kinds sub) :: kinds rest
termination_by ts => sizeOf ts
decreasing_by all_goals simp_wf <;> omega

/-- Two kinds that belong to one foldable run. -/
def dupK : Kind → Kind → Bool
  | Kind.kMv, Kind.kMv => true
  | Kind.kInc, Kind.kInc => true
  | _, _ => false

mutual

/-- Collapse each maximal adjacent run of `kMv` (resp. `kInc`) to a single
marker, recursing into loop bodies. -/
def squeezeL : List Kind → List Kind
  | [] => []
  | [k] => [squeezeK k]
  | k1 :: k2 :: rest =>
      if dupK k1 k2 then squeezeL (k2 :: rest)
      else squeezeK k1 :: squeezeL (k2 :: rest)
termination_by ks => sizeOf ks
decreasing_by all_goals simp_wf <;> omega

/-- Collapse runs inside a loop body. -/
def squeezeK : Kind → Kind
  | Kind.kLp body => Kind.kLp (squeezeL body)
  | k => k
termination_by k => sizeOf k
decreasing_by all_goals simp_wf <;> omega

end

/-- Compile-time failures. The two diagnostics carry the reported line and
within-line position; `stackPanic` models the `panic!` calls of
`search_extra_loop` (unreachable under the invariants of `compile`). -/
inductive CErr where
  | closedLoop : Nat → Nat → CErr
  | openedLoop : Nat → Nat → CErr
  | stackPanic : CErr
deriving DecidableEq

/-- An entry of the bracket stack: the pushed character with the line and
position counters at the moment it was consumed. -/
abbrev Entry := Char × Nat × Nat

/-- Embedding of `search_extra_loop`: pop entries (the list head is the
top of the stack), skipping balanced pairs, until a `'['` at level 0 is
found. `none` models the two `panic!` arms. -/
def search_extra_loop : List Entry → Nat → Option (Nat × Nat)
  | [], _ => none
  | (c, l, p) :: rest, level =>
      if c = '[' then
        if level = 0 then some (l, p) else search_extra_loop rest (level - 1)
      else if c = ']' then search_extra_loop rest (level + 1)
      else none

/-- The successful result of one `compile` call: the tokens built by this
call, the unconsumed remainder of the byte iterator, and the final values
of the three `&mut` parameters `stack`, `line`, `position`. -/
structure CompileOk where
  tokens : List Token
  rem : List Nat
  stack : List Entry
  line : Nat
  position : Nat

/-- Length of the unconsumed remainder of a compile result. -/
def remLen : Except CErr CompileOk → Nat
  | .ok r => r.rem.length
  | .error _ => 0

/-- Prepend one token to the token list of a compile result (the Rust code
pushes tokens in order; the recursive embedding builds the same list by
prepending the token consumed first). -/
def consTok (t : Token) : Except CErr CompileOk → Except CErr CompileOk
  | .ok r => .ok ⟨t :: r.tokens, r.rem, r.stack, r.line, r.position⟩
  | .error e => .error e

/-- Embedding of `compile`. The byte iterator is a list of byte values;
`*byte as char` is `Char.ofNat`. Each loop iteration of the source is one
recursive call consuming the head byte; the trailing `*position += 1` of
the loop body is applied to the position passed to that call — except in
the `']'` arm, which returns before the increment, and in the `'['` arm,
where the increment happens only after the nested call returns. The
process-terminating error paths are `.error` results. The refinement
carried in the subtype (the remainder is no longer than the input) only
serves termination. -/
def compile (bytes : List Nat) (level : Nat) (stack : List Entry)
    (line position : Nat) :
    { r : Except CErr CompileOk // remLen r ≤ bytes.length } :=
  match bytes with
  | [] =>
      if 0 < level then
        match search_extra_loop stack 0 with
        | some (l, p) => ⟨.error (.openedLoop l p), by simp [remLen]⟩
        | none => ⟨.error .stackPanic, by simp [remLen]⟩
      else ⟨.ok ⟨[], [], stack, line, position⟩, by simp [remLen]⟩
  | b :: rest =>
      let c := Char.ofNat b
      if c = '\n' then
        let r := compile rest level stack (line + 1) 1
        ⟨r.1, Nat.le_succ_of_le r.2⟩
      else if c = '>' then
        let r := compile rest level stack line (position + 1)
        ⟨consTok (.move 1) r.1, by
          have h := r.2
          cases hr : r.1 <;> simp [consTok, remLen, hr] at h ⊢ <;> omega⟩
      else if c = '<' then
        let r := compile rest level stack line (position + 1)
        ⟨consTok (.move (-1)) r.1, by
          have h := r.2
          cases hr : r.1 <;> simp [consTok, remLen, hr] at h ⊢ <;> omega⟩
      else if c = '+' then
        let r := compile rest level stack line (position + 1)
        ⟨consTok (.incValue 1) r.1, by
          have h := r.2
          cases hr : r.1 <;> simp [consTok, remLen, hr] at h ⊢ <;> omega⟩
      else if c = '-' then
        let r := compile rest level stack line (position + 1)
        ⟨consTok (.incValue (-1)) r.1, by
          have h := r.2
          cases hr : r.1 <;> simp [consTok, remLen, hr] at h ⊢ <;> omega⟩
      else if c = '.' then
        let r := compile rest level stack line (position + 1)
        ⟨consTok .output r.1, by
          have h := r.2
          cases hr : r.1 <;> simp [consTok, remLen, hr] at h ⊢ <;> omega⟩
      else if c = ',' then
        let r := compile rest level stack line (position + 1)
        ⟨consTok .input r.1, by
          have h := r.2
          cases hr : r.1 <;> simp [consTok, remLen, hr] at h ⊢ <;> omega⟩
      else if c = '[' then
        match h1 : (compile rest (level + 1) (('[', line, position) :: stack)
            line position).1 with
        | .ok r1 =>
            have hb : r1.rem.length ≤ rest.length := by
              have h2 := (compile rest (level + 1)
                (('[', line, position) :: stack) line position).2
              rw [h1] at h2
              simpa [remLen] using h2
            let r2 := compile r1.rem level r1.stack r1.line (r1.position + 1)
            ⟨consTok (.loop r1.tokens) r2.1, by
              have h := r2.2
              cases hr : r2.1 <;> simp [consTok, remLen, hr] at h ⊢ <;> omega⟩
        | .error e => ⟨.error e, by simp [remLen]⟩
      else if c = ']' then
        if level = 0 then
          ⟨.error (.closedLoop line position), by simp [remLen]⟩
        else
          ⟨.ok ⟨[], rest, (']', line, position) :: stack, line, position⟩, by
            simp only [remLen, List.length_cons]; omega⟩
      else
        let r := compile rest level stack line (position + 1)
        ⟨r.1, Nat.le_succ_of_le r.2⟩
termination_by bytes.length
decreasing_by all_goals simp_wf <;> omega

/-- The `Except`-valued view of `compile`. -/
def compileExc (bytes : List Nat) (level : Nat) (stack : List Entry)
    (line position : Nat) : Except CErr CompileOk :=
  (compile bytes level stack line position).1

/-- Compilation as `main` invokes it:
`compile(data.as_bytes().iter(), 0, &mut Vec::new(), &mut 1, &mut 1).0`. -/
def compileProgram (bytes : List Nat) : Except CErr (List Token) :=
  match compileExc bytes 0 [] 1 1 with
  | .ok r => .ok r.tokens
  | .error e => .error e

/-- Balanced bracket sequences of source bytes (the Dyck grammar over the
two bytes that `compile` treats as brackets; every other byte is free). -/
inductive Bal : List Nat → Prop where
  | nil : Bal []
  | other (b : Nat) (rest : List Nat) :
      Char.ofNat b ≠ '[' → Char.ofNat b ≠ ']' → Bal rest → Bal (b :: rest)
  | wrap (b1 b2 : Nat) (inner rest : List Nat) :
      Char.ofNat b1 = '[' → Char.ofNat b2 = ']' →
      Bal inner → Bal rest → Bal (b1 :: inner ++ b2 :: rest)

/-- The net effect of consuming one byte sequence on the line / position
counters of `compile`: a newline resets the position to 1 and bumps the
line; a `'['` leaves the position untouched (its increment is deferred
past the loop body, and the matching `']'`, which skips its own
increment, triggers the deferred one — so in net effect `']'` advances
the position and `'['` does not); every other byte advances it by 1. -/
def advance : List Nat → Nat × Nat → Nat × Nat
  | [], lp => lp
  | b :: u, (l, p) =>
      let c := Char.ofNat b
      advance u (if c = '\n' then (l + 1, 1) else if c = '[' then (l, p) else (l, p + 1))

/-- `openJoin u0 [u1, …, uk]` is the byte sequence
`u0 ++ brack ++ u1 ++ brack ++ … ++ brack ++ uk` where `brack` is the byte
of `'['`: a source whose still-open brackets are exactly the `k`
separators. -/
def openJoin : List Nat → List (List Nat) → List Nat
  | u0, [] => u0
  | u0, u :: us => u0 ++ 91 :: openJoin u us

/-- Prepend finished tokens to the token list of a compile result. -/
def addToks (ts : List Token) : Except CErr CompileOk → Except CErr CompileOk
  | .ok r => .ok ⟨ts ++ r.tokens, r.rem, r.stack, r.line, r.position⟩
  | .error e => .error e

/-- An entry block that `search_extra_loop` walks through without ever
finding its unmatched opening bracket in it: pushing it on any stack
changes nothing about the search outcome. -/
def SkipE (E : List Entry) : Prop :=
  ∀ s lvl, search_extra_loop (E ++ s) lvl = search_extra_loop s lvl

/-- The kind marker of a single instruction. -/
def kindOf : Token → Kind
  | Token.output => Kind.kOut
  | Token.input => Kind.kInp
  | Token.move _ => Kind.kMv
  | Token.incValue _ => Kind.kInc
  | Token.loop sub => Kind.kLp (kinds sub)

/-- C1: evaluation of the `Move` arm at a folded delta of more than one
full tape length. The source subtracts `MEMORY_SIZE` only once, so from
pointer 0 a `Move(60000)` leaves the pointer at 30000 — outside
`[0, 30000)` and different from `(0 + 60000) mod 30000 = 0`; and a
`Move(-30001)` underflows the pointer computation (a panic in the
source, `none` here) instead of wrapping to 29999. -/
theorem move_arm_loses_range :
    moveDp 0 60000 = some 30000 ∧
    moveDp 0 60000 ≠ some ((0 + 60000) % MEMORY_SIZE) ∧
    moveDp 0 (-30001) = none := by
  refine ⟨by decide, by decide, by decide⟩

/-- C3: the `IncValue` arm updates the cell to `(c + delta) mod 256` for
every cell value and every signed delta of arbitrary magnitude: the
truncating cast `delta as i8` is congruent to `delta` modulo 256, so the
wrapping byte addition lands on the claimed value. -/
theorem incvalue_wraps_mod_256 (c : Nat) (hc : c < 256) (v : Int) :
    incValue c v = (((c : Int) + v) % 256).toNat := by
  simp only [incValue, wrapping_add_signed, as_i8]
  split <;> congr 1 <;> omega

/-- Witness for `incvalue_wraps_mod_256` at cell 200, delta −500. -/
theorem incvalue_wraps_mod_256_witness :
    200 < 256 ∧ incValue 200 (-500) = (((200 : Int) + -500) % 256).toNat :=
  ⟨by decide, incvalue_wraps_mod_256 200 (by decide) (-500)⟩

/-- C10: the `Output` arm writes the UTF-8 encoding of the cell value read
as a code point: one raw byte for values below 128, and for values in
`[128, 256)` the two-byte UTF-8 sequence instead of the single raw
byte. -/
theorem output_writes_utf8 (c : Nat) (hc : c < 256) :
    (c < 128 → outputBytes c = [c]) ∧
    (128 ≤ c → outputBytes c = [192 + c / 64, 128 + c % 64] ∧
      (outputBytes c).length = 2 ∧ outputBytes c ≠ [c]) := by
  constructor
  · intro h
    simp [outputBytes, utf8Encode, h]
  · intro h
    have h1 : ¬ c < 128 := by omega
    have h2 : c < 2048 := by omega
    refine ⟨by simp [outputBytes, utf8Encode, h1, h2], ?_, ?_⟩
    · simp [outputBytes, utf8Encode, h1, h2]
    · simp [outputBytes, utf8Encode, h1, h2]

/-- Witness for `output_writes_utf8` at cell 200 (code point U+00C8). -/
theorem output_writes_utf8_witness :
    200 < 256 ∧ outputBytes 200 = [195, 136] := by
  refine ⟨by decide, ?_⟩
  have h := (output_writes_utf8 200 (by decide)).2 (by decide)
  rw [h.1]

/-- C9 counterexample: the read succeeded, yet the fatal error path is
taken, because the flush of pending output failed — so the error path is
not taken only on read errors. -/
theorem input_flush_error_counterexample :
    runInput ⟨[0], 0⟩ (Except.error (0 : Nat)) (Except.ok [5])
      = Except.error (0 : Nat) := rfl

/-- C9 (amended): a zero-byte read at end of input stores 0 into the
current cell and execution continues; the fatal error path is taken
exactly when the stdout flush or the underlying read returns an error. -/
theorem input_eof_stores_zero (E : Type) (st : Interp) :
    runInput st (Except.ok () : Except E Unit) (Except.ok [])
      = Except.ok ⟨st.memory.set st.dp 0, st.dp⟩ ∧
    ∀ (flushRes : Except E Unit) (readRes : Except E (List Nat)),
      (∃ e, runInput st flushRes readRes = Except.error e) ↔
      ((∃ e, flushRes = Except.error e) ∨ (∃ e, readRes = Except.error e)) := by
  refine ⟨rfl, ?_⟩
  intro f r
  cases f with
  | error e => simp [runInput, read_input]
  | ok u =>
    cases r with
    | error e => simp [runInput, read_input]
    | ok data => simp [runInput, read_input]

theorem ceq_nil_pos (level : Nat) (stack : List Entry) (line position l p : Nat)
    (h : 0 < level) (hs : search_extra_loop stack 0 = some (l, p)) :
    compileExc [] level stack line position = .error (.openedLoop l p) := by
  unfold compileExc compile
  rw [if_pos h, hs]

theorem ceq_nil_zero (level : Nat) (stack : List Entry) (line position : Nat)
    (h : ¬ 0 < level) :
    compileExc [] level stack line position = .ok ⟨[], [], stack, line, position⟩ := by
  unfold compileExc compile
  rw [if_neg h]

theorem ceq_newline (b : Nat) (rest : List Nat) (level : Nat) (stack : List Entry)
    (line position : Nat) (h : Char.ofNat b = '\n') :
    compileExc (b :: rest) level stack line position =
      compileExc rest level stack (line + 1) 1 := by
  simp only [compileExc]
  rw [compile]
  simp [h]

theorem ceq_gt (b : Nat) (rest : List Nat) (level : Nat) (stack : List Entry)
    (line position : Nat) (h : Char.ofNat b = '>') :
    compileExc (b :: rest) level stack line position =
      consTok (.move 1) (compileExc rest level stack line (position + 1)) := by
  simp only [compileExc]
  rw [compile]
  simp [h]

theorem ceq_lt (b : Nat) (rest : List Nat) (level : Nat) (stack : List Entry)
    (line position : Nat) (h : Char.ofNat b = '<') :
    compileExc (b :: rest) level stack line position =
      consTok (.move (-1)) (compileExc rest level stack line (position + 1)) := by
  simp only [compileExc]
  rw [compile]
  simp [h]

theorem ceq_plus (b : Nat) (rest : List Nat) (level : Nat) (stack : List Entry)
    (line position : Nat) (h : Char.ofNat b = '+') :
    compileExc (b :: rest) level stack line position =
      consTok (.incValue 1) (compileExc rest level stack line (position + 1)) := by
  simp only [compileExc]
  rw [compile]
  simp [h]

theorem ceq_minus (b : Nat) (rest : List Nat) (level : Nat) (stack : List Entry)
    (line position : Nat) (h : Char.ofNat b = '-') :
    compileExc (b :: rest) level stack line position =
      consTok (.incValue (-1)) (compileExc rest level stack line (position + 1)) := by
  simp only [compileExc]
  rw [compile]
  simp [h]

theorem ceq_dot (b : Nat) (rest : List Nat) (level : Nat) (stack : List Entry)
    (line position : Nat) (h : Char.ofNat b = '.') :
    compileExc (b :: rest) level stack line position =
      consTok .output (compileExc rest level stack line (position + 1)) := by
  simp only [compileExc]
  rw [compile]
  simp [h]

theorem ceq_comma (b : Nat) (rest : List Nat) (level : Nat) (stack : List Entry)
    (line position : Nat) (h : Char.ofNat b = ',') :
    compileExc (b :: rest) level stack line position =
      consTok .input (compileExc rest level stack line (position + 1)) := by
  simp only [compileExc]
  rw [compile]
  simp [h]

theorem ceq_open_ok (b : Nat) (rest : List Nat) (level : Nat) (stack : List Entry)
    (line position : Nat) (r1 : CompileOk) (h : Char.ofNat b = '[')
    (hm : compileExc rest (level + 1) (('[', line, position) :: stack) line position
            = .ok r1) :
    compileExc (b :: rest) level stack line position =
      consTok (.loop r1.tokens)
        (compileExc r1.rem level r1.stack r1.line (r1.position + 1)) := by
  simp only [compileExc] at hm ⊢
  rw [compile]
  simp [h]
  split
  · rename_i r1' heq
    rw [hm] at heq
    cases heq
    rfl
  · rename_i e heq
    rw [hm] at heq
    cases heq

theorem ceq_open_err (b : Nat) (rest : List Nat) (level : Nat) (stack : List Entry)
    (line position : Nat) (e : CErr) (h : Char.ofNat b = '[')
    (hm : compileExc rest (level + 1) (('[', line, position) :: stack) line position
            = .error e) :
    compileExc (b :: rest) level stack line position = .error e := by
  simp only [compileExc] at hm ⊢
  rw [compile]
  simp [h]
  split
  · rename_i r1' heq
    rw [hm] at heq
    cases heq
  · rename_i e' heq
    rw [hm] at heq
    cases heq
    rfl

theorem ceq_close_err (b : Nat) (rest : List Nat) (level : Nat) (stack : List Entry)
    (line position : Nat) (h : Char.ofNat b = ']') (hl : level = 0) :
    compileExc (b :: rest) level stack line position =
      .error (.closedLoop line position) := by
  simp only [compileExc]
  rw [compile]
  simp [h, hl]

theorem ceq_close_ok (b : Nat) (rest : List Nat) (level : Nat) (stack : List Entry)
    (line position : Nat) (h : Char.ofNat b = ']') (hl : ¬ level = 0) :
    compileExc (b :: rest) level stack line position =
      .ok ⟨[], rest, (']', line, position) :: stack, line, position⟩ := by
  simp only [compileExc]
  rw [compile]
  simp [h, hl]

theorem ceq_skip (b : Nat) (rest : List Nat) (level : Nat) (stack : List Entry)
    (line position : Nat)
    (h1 : Char.ofNat b ≠ '\n') (h2 : Char.ofNat b ≠ '>') (h3 : Char.ofNat b ≠ '<')
    (h4 : Char.ofNat b ≠ '+') (h5 : Char.ofNat b ≠ '-') (h6 : Char.ofNat b ≠ '.')
    (h7 : Char.ofNat b ≠ ',') (h8 : Char.ofNat b ≠ '[') (h9 : Char.ofNat b ≠ ']') :
    compileExc (b :: rest) level stack line position =
      compileExc rest level stack line (position + 1) := by
  simp only [compileExc]
  rw [compile]
  simp [h1, h2, h3, h4, h5, h6, h7, h8, h9]

theorem addToks_nil_exc (x : Except CErr CompileOk) : addToks [] x = x := by
  cases x with
  | ok r => cases r; simp [addToks]
  | error e => simp [addToks]

theorem consTok_addToks (t : Token) (ts : List Token) (x : Except CErr CompileOk) :
    consTok t (addToks ts x) = addToks (t :: ts) x := by
  cases x <;> simp [consTok, addToks]

theorem advance_append (u v : List Nat) (lp : Nat × Nat) :
    advance (u ++ v) lp = advance v (advance u lp) := by
  induction u generalizing lp with
  | nil => rfl
  | cons b u ih =>
      obtain ⟨l, p⟩ := lp
      simp only [List.cons_append, advance]
      exact ih _

theorem sel_close (l p : Nat) (rest : List Entry) (lvl : Nat) :
    search_extra_loop ((']', l, p) :: rest) lvl = search_extra_loop rest (lvl + 1) := by
  simp [search_extra_loop]

theorem sel_open_pos (l p : Nat) (rest : List Entry) (lvl : Nat) (h : lvl ≠ 0) :
    search_extra_loop (('[', l, p) :: rest) lvl = search_extra_loop rest (lvl - 1) := by
  simp [search_extra_loop, h]

theorem sel_open_zero (l p : Nat) (rest : List Entry) :
    search_extra_loop (('[', l, p) :: rest) 0 = some (l, p) := by
  simp [search_extra_loop]

theorem skipE_nil : SkipE [] := fun _ _ => rfl

theorem skipE_wrap (E1 E2 : List Entry) (l1 p1 l p : Nat)
    (h1 : SkipE E1) (h2 : SkipE E2) :
    SkipE (E2 ++ (']', l1, p1) :: E1 ++ [('[', l, p)]) := by
  intro s lvl
  have hre : (E2 ++ (']', l1, p1) :: E1 ++ [('[', l, p)]) ++ s
      = E2 ++ ((']', l1, p1) :: (E1 ++ (('[', l, p) :: s))) := by simp
  rw [hre, h2, sel_close, h1, sel_open_pos _ _ _ _ (by omega)]
  rfl

/-- Processing a balanced byte sequence is transparent: `compile` walks
straight through it, prepending its tokens, pushing an entry block the
unmatched-open search skips, and advancing the line / position counters
by the flat per-byte rule of `advance` — then continues on the rest with
the same nesting level. -/
theorem compile_transparent (u : List Nat) (hu : Bal u) :
    ∀ rest level stack line pos,
      ∃ ts E, SkipE E ∧
        compileExc (u ++ rest) level stack line pos
          = addToks ts (compileExc rest level (E ++ stack)
              (advance u (line, pos)).1 (advance u (line, pos)).2) := by
  induction hu with
  | nil =>
      intro rest level stack line pos
      exact ⟨[], [], skipE_nil, by simp [addToks_nil_exc, advance]⟩
  | other b u hb1 hb2 _ ih =>
      intro rest level stack line pos
      by_cases hnl : Char.ofNat b = '\n'
      · obtain ⟨ts, E, hE, heq⟩ := ih rest level stack (line + 1) 1
        refine ⟨ts, E, hE, ?_⟩
        have ha : advance (b :: u) (line, pos) = advance u (line + 1, 1) := by
          simp [advance, hnl]
        rw [List.cons_append, ceq_newline _ _ _ _ _ _ hnl, heq, ha]
      · by_cases hgt : Char.ofNat b = '>'
        · obtain ⟨ts, E, hE, heq⟩ := ih rest level stack line (pos + 1)
          refine ⟨Token.move 1 :: ts, E, hE, ?_⟩
          have ha : advance (b :: u) (line, pos) = advance u (line, pos + 1) := by
            simp [advance, hnl, hgt]
          rw [List.cons_append, ceq_gt _ _ _ _ _ _ hgt, heq, consTok_addToks, ha]
        · by_cases hlt : Char.ofNat b = '<'
          · obtain ⟨ts, E, hE, heq⟩ := ih rest level stack line (pos + 1)
            refine ⟨Token.move (-1) :: ts, E, hE, ?_⟩
            have ha : advance (b :: u) (line, pos) = advance u (line, pos + 1) := by
              simp [advance, hnl, hlt]
            rw [List.cons_append, ceq_lt _ _ _ _ _ _ hlt, heq, consTok_addToks, ha]
          · by_cases hpl : Char.ofNat b = '+'
            · obtain ⟨ts, E, hE, heq⟩ := ih rest level stack line (pos + 1)
              refine ⟨Token.incValue 1 :: ts, E, hE, ?_⟩
              have ha : advance (b :: u) (line, pos) = advance u (line, pos + 1) := by
                simp [advance, hnl, hpl]
              rw [List.cons_append, ceq_plus _ _ _ _ _ _ hpl, heq, consTok_addToks, ha]
            · by_cases hmi : Char.ofNat b = '-'
              · obtain ⟨ts, E, hE, heq⟩ := ih rest level stack line (pos + 1)
                refine ⟨Token.incValue (-1) :: ts, E, hE, ?_⟩
                have ha : advance (b :: u) (line, pos) = advance u (line, pos + 1) := by
                  simp [advance, hnl, hmi]
                rw [List.cons_append, ceq_minus _ _ _ _ _ _ hmi, heq, consTok_addToks, ha]
              · by_cases hdo : Char.ofNat b = '.'
                · obtain ⟨ts, E, hE, heq⟩ := ih rest level stack line (pos + 1)
                  refine ⟨Token.output :: ts, E, hE, ?_⟩
                  have ha : advance (b :: u) (line, pos) = advance u (line, pos + 1) := by
                    simp [advance, hnl, hdo]
                  rw [List.cons_append, ceq_dot _ _ _ _ _ _ hdo, heq, consTok_addToks, ha]
                · by_cases hco : Char.ofNat b = ','
                  · obtain ⟨ts, E, hE, heq⟩ := ih rest level stack line (pos + 1)
                    refine ⟨Token.input :: ts, E, hE, ?_⟩
                    have ha : advance (b :: u) (line, pos) = advance u (line, pos + 1) := by
                      simp [advance, hnl, hco]
                    rw [List.cons_append, ceq_comma _ _ _ _ _ _ hco, heq, consTok_addToks, ha]
                  · obtain ⟨ts, E, hE, heq⟩ := ih rest level stack line (pos + 1)
                    refine ⟨ts, E, hE, ?_⟩
                    have ha : advance (b :: u) (line, pos) = advance u (line, pos + 1) := by
                      simp [advance, hnl, hb1]
                    rw [List.cons_append,
                      ceq_skip _ _ _ _ _ _ hnl hgt hlt hpl hmi hdo hco hb1 hb2, heq, ha]
  | wrap b1 b2 inner rest' hb1 hb2 _ _ ihInner ihRest =>
      intro rest level stack line pos
      have hsplit : (b1 :: inner ++ b2 :: rest') ++ rest
          = b1 :: (inner ++ (b2 :: (rest' ++ rest))) := by simp
      rw [hsplit]
      obtain ⟨ts1, E1, hE1, h1⟩ :=
        ihInner (b2 :: (rest' ++ rest)) (level + 1) (('[', line, pos) :: stack) line pos
      rw [ceq_close_ok b2 (rest' ++ rest) (level + 1) _ _ _ hb2 (by omega)] at h1
      simp only [addToks, List.append_nil] at h1
      have hopen := ceq_open_ok b1 (inner ++ (b2 :: (rest' ++ rest))) level stack line pos
        ⟨ts1, rest' ++ rest,
          (']', (advance inner (line, pos)).1, (advance inner (line, pos)).2)
            :: E1 ++ ('[', line, pos) :: stack,
          (advance inner (line, pos)).1, (advance inner (line, pos)).2⟩ hb1 h1
      obtain ⟨ts2, E2, hE2, h2⟩ := ihRest rest level
        ((']', (advance inner (line, pos)).1, (advance inner (line, pos)).2)
          :: E1 ++ ('[', line, pos) :: stack)
        (advance inner (line, pos)).1 ((advance inner (line, pos)).2 + 1)
      refine ⟨Token.loop ts1 :: ts2,
        E2 ++ (']', (advance inner (line, pos)).1, (advance inner (line, pos)).2)
          :: E1 ++ [('[', line, pos)],
        skipE_wrap E1 E2 _ _ _ _ hE1 hE2, ?_⟩
      rw [hopen]
      simp only at h2 ⊢
      rw [h2, consTok_addToks]
      have hstk : E2 ++ ((']', (advance inner (line, pos)).1, (advance inner (line, pos)).2)
            :: E1 ++ ('[', line, pos) :: stack)
          = (E2 ++ (']', (advance inner (line, pos)).1, (advance inner (line, pos)).2)
              :: E1 ++ [('[', line, pos)]) ++ stack := by simp
      have hadv : advance (b1 :: inner ++ b2 :: rest') (line, pos)
          = advance rest' ((advance inner (line, pos)).1, (advance inner (line, pos)).2 + 1) := by
        have hb1' : Char.ofNat b1 ≠ '\n' := by rw [hb1]; decide
        have hsp : b1 :: inner ++ b2 :: rest' = (b1 :: inner) ++ ((b2 :: []) ++ rest') := by simp
        rw [hsp, advance_append, advance_append]
        have e1 : advance (b1 :: inner) (line, pos) = advance inner (line, pos) := by
          simp [advance, hb1, hb1']
        rw [e1]
        have e2 : advance [b2] (advance inner (line, pos))
            = ((advance inner (line, pos)).1, (advance inner (line, pos)).2 + 1) := by
          rcases hx : advance inner (line, pos) with ⟨l1, p1⟩
          simp [advance, hb2]
        rw [e2]
      rw [hstk, hadv]

/-- Helper for the unmatched-open theorem, generalized over the state of
an ongoing compilation. -/
theorem unclosed_general (us : List (List Nat)) :
    ∀ u0, Bal u0 → (∀ u ∈ us, Bal u) → us ≠ [] →
    ∀ level stack line pos,
      compileExc (openJoin u0 us) level stack line pos
        = .error (.openedLoop (advance (openJoin u0 us.dropLast) (line, pos)).1
                              (advance (openJoin u0 us.dropLast) (line, pos)).2) := by
  induction us with
  | nil => intro u0 _ _ hne; exact absurd rfl hne
  | cons u1 us' ih =>
      intro u0 hu0 hall _ level stack line pos
      obtain ⟨ts, E, hE, h⟩ :=
        compile_transparent u0 hu0 (91 :: openJoin u1 us') level stack line pos
      rcases ha0 : advance u0 (line, pos) with ⟨l0, p0⟩
      rw [ha0] at h
      cases us' with
      | nil =>
          have hu1 : Bal u1 := hall u1 (by simp)
          obtain ⟨ts1, E1, hE1, h1⟩ := compile_transparent u1 hu1 []
            (level + 1) (('[', l0, p0) :: (E ++ stack)) l0 p0
          rw [List.append_nil] at h1
          rcases ha1 : advance u1 (l0, p0) with ⟨l1, p1⟩
          rw [ha1] at h1
          rw [ceq_nil_pos (level + 1) _ l1 p1 l0 p0 (by omega)
            (by rw [hE1, sel_open_zero])] at h1
          have h1' : compileExc (openJoin u1 ([] : List (List Nat))) (level + 1)
              (('[', l0, p0) :: (E ++ stack)) l0 p0 = .error (.openedLoop l0 p0) := by
            show compileExc u1 (level + 1) (('[', l0, p0) :: (E ++ stack)) l0 p0 = _
            rw [h1]
            rfl
          have h0 := ceq_open_err 91 (openJoin u1 []) level (E ++ stack) l0 p0 _
            (by decide) h1'
          show compileExc (u0 ++ 91 :: openJoin u1 []) level stack line pos = _
          rw [h, h0]
          show Except.error (CErr.openedLoop l0 p0)
            = .error (.openedLoop (advance u0 (line, pos)).1 (advance u0 (line, pos)).2)
          rw [ha0]
      | cons u2 us'' =>
          have h1 := ih u1 (hall u1 (by simp))
            (by intro u hu; exact hall u (by simp [hu]))
            (by simp) (level + 1) (('[', l0, p0) :: (E ++ stack)) l0 p0
          have h0 := ceq_open_err 91 (openJoin u1 (u2 :: us'')) level (E ++ stack) l0 p0 _
            (by decide) h1
          show compileExc (u0 ++ 91 :: openJoin u1 (u2 :: us'')) level stack line pos = _
          rw [h, h0]
          show Except.error _ = _
          have hdl : (u1 :: u2 :: us'').dropLast = u1 :: (u2 :: us'').dropLast := by
            simp
          rw [hdl]
          have hoj : openJoin u0 (u1 :: (u2 :: us'').dropLast)
              = u0 ++ 91 :: openJoin u1 ((u2 :: us'').dropLast) := rfl
          rw [hoj, advance_append]
          rw [ha0]
          have h91 : advance (91 :: openJoin u1 ((u2 :: us'').dropLast)) (l0, p0)
              = advance (openJoin u1 ((u2 :: us'').dropLast)) (l0, p0) := by
            simp [advance]
          rw [h91]

/-- C2 (amended): end of input with still-open brackets fails with the
opened-nonexistent-loop diagnostic carrying the line / position counters
recorded when the most recently opened still-open bracket was consumed;
`advance` gives those counters (position advances by one per byte of a
line, except that an unclosed opening bracket contributes nothing). -/
theorem compile_unclosed_reports (u0 : List Nat) (us : List (List Nat))
    (hu0 : Bal u0) (hall : ∀ u ∈ us, Bal u) (hne : us ≠ []) :
    compileProgram (openJoin u0 us)
      = .error (.openedLoop (advance (openJoin u0 us.dropLast) (1, 1)).1
                            (advance (openJoin u0 us.dropLast) (1, 1)).2) := by
  have h := unclosed_general us u0 hu0 hall hne 0 [] 1 1
  simp [compileProgram, h]

/-- Witness for `compile_unclosed_reports`: the source `"[a"`. -/
theorem compile_unclosed_reports_witness :
    compileProgram [91, 97] = .error (.openedLoop 1 1) := by
  have h := compile_unclosed_reports [] [[97]] Bal.nil
    (by
      intro u hu
      simp only [List.mem_singleton] at hu
      subst hu
      exact Bal.other 97 [] (by decide) (by decide) Bal.nil)
    (by simp)
  exact h

/-- C4 (amended): a stray closing bracket after a balanced prefix `u`
fails with the closed-nonexistent-loop diagnostic carrying the counters
`advance u (1, 1)` — the true line, and the true within-line position
minus one for each opening bracket earlier on its line. -/
theorem compile_stray_close_reports (u v : List Nat) (hu : Bal u) :
    compileProgram (u ++ 93 :: v)
      = .error (.closedLoop (advance u (1, 1)).1 (advance u (1, 1)).2) := by
  obtain ⟨ts, E, hE, h⟩ := compile_transparent u hu (93 :: v) 0 [] 1 1
  rw [ceq_close_err 93 v 0 _ _ _ (by decide) rfl] at h
  simp [compileProgram, h, addToks]

/-- Witness for `compile_stray_close_reports`: the source `"+]"`. -/
theorem compile_stray_close_reports_witness :
    compileProgram [43, 93] = .error (.closedLoop 1 2) := by
  have h := compile_stray_close_reports [43] []
    (Bal.other 43 [] (by decide) (by decide) Bal.nil)
  exact h

/-- C5: a source whose brackets are balanced always compiles successfully;
neither compile-error branch is reachable. -/
theorem compile_balanced_no_error (bytes : List Nat) (hb : Bal bytes) :
    ∃ ts, compileProgram bytes = .ok ts := by
  obtain ⟨ts, E, hE, h⟩ := compile_transparent bytes hb [] 0 [] 1 1
  rw [ceq_nil_zero 0 _ _ _ (by omega)] at h
  refine ⟨ts ++ [], ?_⟩
  rw [show bytes ++ [] = bytes from by simp] at h
  simp [compileProgram, h, addToks]

/-- Witness for `compile_balanced_no_error`: the source `"+[-]"`. -/
theorem compile_balanced_no_error_witness :
    ∃ ts, compileProgram [43, 91, 45, 93] = .ok ts :=
  compile_balanced_no_error _
    (Bal.other 43 _ (by decide) (by decide)
      (Bal.wrap 91 93 [45] [] (by decide) (by decide)
        (Bal.other 45 _ (by decide) (by decide) Bal.nil) Bal.nil))

/-- C2 counterexample: in the source `"[a["` both opening brackets are
still open at end of input; the oldest one sits at line 1 position 1, yet
the diagnostic reports 1:2 — the counter state at the newest one. -/
theorem compile_unclosed_counterexample :
    compileProgram [91, 97, 91] = .error (.openedLoop 1 2) ∧
    CErr.openedLoop 1 2 ≠ CErr.openedLoop 1 1 := by
  constructor
  · have e2 : compileExc [] 2 [('[', 1, 2), ('[', 1, 1)] 1 2
        = .error (.openedLoop 1 2) :=
      ceq_nil_pos 2 [('[', 1, 2), ('[', 1, 1)] 1 2 1 2 (by omega) (by decide)
    have e1b : compileExc [91] 1 [('[', 1, 1)] 1 2 = .error (.openedLoop 1 2) :=
      ceq_open_err 91 [] 1 [('[', 1, 1)] 1 2 _ (by decide) e2
    have e1 : compileExc [97, 91] 1 [('[', 1, 1)] 1 1 = .error (.openedLoop 1 2) := by
      rw [ceq_skip 97 [91] 1 [('[', 1, 1)] 1 1 (by decide) (by decide) (by decide)
        (by decide) (by decide) (by decide) (by decide) (by decide) (by decide)]
      exact e1b
    have e0 : compileExc [91, 97, 91] 0 [] 1 1 = .error (.openedLoop 1 2) :=
      ceq_open_err 91 [97, 91] 0 [] 1 1 _ (by decide) e1
    simp [compileProgram, e0]
  · decide

/-- C4 counterexample: in the source `"[]]"` the stray `]` is the third
byte of line 1, yet the diagnostic reports 1:2, because the position
increment of the `[` was deferred past its loop and the matched `]`
skipped its own increment. -/
theorem compile_stray_close_counterexample :
    compileProgram [91, 93, 93] = .error (.closedLoop 1 2) ∧
    CErr.closedLoop 1 2 ≠ CErr.closedLoop 1 3 := by
  constructor
  · have i1 : compileExc [93, 93] 1 [('[', 1, 1)] 1 1
        = .ok ⟨[], [93], [(']', 1, 1), ('[', 1, 1)], 1, 1⟩ :=
      ceq_close_ok 93 [93] 1 [('[', 1, 1)] 1 1 (by decide) (by omega)
    have i2 : compileExc [93] 0 [(']', 1, 1), ('[', 1, 1)] 1 2
        = .error (.closedLoop 1 2) :=
      ceq_close_err 93 [] 0 [(']', 1, 1), ('[', 1, 1)] 1 2 (by decide) rfl
    have i0 := ceq_open_ok 91 [93, 93] 0 [] 1 1
      ⟨[], [93], [(']', 1, 1), ('[', 1, 1)], 1, 1⟩ (by decide) i1
    rw [i2] at i0
    simp only [consTok] at i0
    simp [compileProgram, i0]
  · decide

theorem mergeable_loop_left (s : List Token) (a : Token) :
    mergeable (Token.loop s) a = false := by cases a <;> rfl

theorem mergeable_inc_left (n m : Int) (x : Token) :
    mergeable (Token.incValue n) x = mergeable (Token.incValue m) x := by
  cases x <;> rfl

theorem mergeable_move_left (n m : Int) (x : Token) :
    mergeable (Token.move n) x = mergeable (Token.move m) x := by
  cases x <;> rfl

theorem mergeable_symm (a b : Token) : mergeable a b = mergeable b a := by
  cases a <;> cases b <;> rfl

theorem optGo_nil (acc : List Token) : optGo [] acc = acc := by
  simp [optGo]

theorem optGo_loop (sub rest acc : List Token) :
    optGo (Token.loop sub :: rest) acc
      = optGo rest (Token.loop ((optGo sub []).reverse) :: acc) := by
  simp [optGo]

theorem optGo_merge_inc (n v : Int) (rest accRest : List Token) :
    optGo (Token.incValue v :: rest) (Token.incValue n :: accRest)
      = optGo rest (Token.incValue (n + v) :: accRest) := by
  simp [optGo]

theorem optGo_merge_mv (n v : Int) (rest accRest : List Token) :
    optGo (Token.move v :: rest) (Token.move n :: accRest)
      = optGo rest (Token.move (n + v) :: accRest) := by
  simp [optGo]

theorem optGo_push (t : Token) (rest acc : List Token)
    (hno_loop : ∀ sub, t ≠ Token.loop sub)
    (hm : ∀ a accRest, acc = a :: accRest → mergeable a t = false) :
    optGo (t :: rest) acc = optGo rest (t :: acc) := by
  cases t with
  | loop s => exact (hno_loop s rfl).elim
  | incValue v =>
      cases acc with
      | nil => simp [optGo]
      | cons a accRest =>
          cases a with
          | incValue n => exact absurd (hm _ _ rfl) (by simp [mergeable])
          | output => simp [optGo]
          | input => simp [optGo]
          | move n => simp [optGo]
          | loop s => simp [optGo]
  | move v =>
      cases acc with
      | nil => simp [optGo]
      | cons a accRest =>
          cases a with
          | move n => exact absurd (hm _ _ rfl) (by simp [mergeable])
          | output => simp [optGo]
          | input => simp [optGo]
          | incValue n => simp [optGo]
          | loop s => simp [optGo]
  | output =>
      cases acc with
      | nil => simp [optGo]
      | cons a accRest => cases a <;> simp [optGo]
  | input =>
      cases acc with
      | nil => simp [optGo]
      | cons a accRest => cases a <;> simp [optGo]

theorem noMerge_iff (l : List Token) :
    noMerge l = true ↔ l.Chain' (fun a b => mergeable a b = false) := by
  induction l with
  | nil => simp [noMerge]
  | cons t l ih =>
      cases l with
      | nil => simp [noMerge]
      | cons t2 l2 =>
          rw [List.chain'_cons, ← ih]
          show (!mergeable t t2 && noMerge (t2 :: l2)) = true ↔ _
          simp

theorem noMerge_reverse (l : List Token) : noMerge l.reverse = noMerge l := by
  have h1 := noMerge_iff l.reverse
  have h2 := noMerge_iff l
  rw [List.chain'_reverse] at h1
  have hf : ∀ a b : Token, (flip (fun a b => mergeable a b = false)) a b
      ↔ (fun a b => mergeable a b = false) a b := by
    intro a b
    simp only [flip]
    rw [mergeable_symm]
  have hiff : noMerge l.reverse = true ↔ noMerge l = true := by
    rw [h1, h2]
    constructor
    · intro h
      exact List.Chain'.imp (fun a b hab => (hf a b).mp hab) h
    · intro h
      exact List.Chain'.imp (fun a b hab => (hf a b).mpr hab) h
  rcases hb : noMerge l with _ | _ <;> rcases hb2 : noMerge l.reverse with _ | _
  · rfl
  · rw [hb, hb2] at hiff
    simp at hiff
  · rw [hb, hb2] at hiff
    simp at hiff
  · rfl

theorem noMerge_tail (t : Token) (l : List Token) (h : noMerge (t :: l) = true) :
    noMerge l = true := by
  cases l with
  | nil => rfl
  | cons t2 l2 =>
      have : (!mergeable t t2 && noMerge (t2 :: l2)) = true := h
      simp at this
      exact this.2

theorem noMerge_head (t t2 : Token) (l : List Token)
    (h : noMerge (t :: t2 :: l) = true) : mergeable t t2 = false := by
  have : (!mergeable t t2 && noMerge (t2 :: l)) = true := h
  simp at this
  exact this.1

theorem noMerge_cons_of (t : Token) (l : List Token)
    (hh : ∀ a l2, l = a :: l2 → mergeable t a = false)
    (hl : noMerge l = true) : noMerge (t :: l) = true := by
  cases l with
  | nil => rfl
  | cons a l2 =>
      show (!mergeable t a && noMerge (a :: l2)) = true
      simp [hh a l2 rfl, hl]

theorem bodiesOpt_cons_loop (sub l : List Token) :
    bodiesOpt (Token.loop sub :: l)
      = (noMerge sub && bodiesOpt sub && bodiesOpt l) := by
  simp [bodiesOpt]

theorem bodiesOpt_cons_other (t : Token) (l : List Token)
    (h : ∀ sub, t ≠ Token.loop sub) : bodiesOpt (t :: l) = bodiesOpt l := by
  cases t with
  | loop s => exact (h s rfl).elim
  | output => simp [bodiesOpt]
  | input => simp [bodiesOpt]
  | move n => simp [bodiesOpt]
  | incValue n => simp [bodiesOpt]

theorem bodiesOpt_append (l1 l2 : List Token) :
    bodiesOpt (l1 ++ l2) = (bodiesOpt l1 && bodiesOpt l2) := by
  induction l1 with
  | nil => simp [bodiesOpt]
  | cons t l ih =>
      cases t with
      | loop s =>
          rw [List.cons_append, bodiesOpt_cons_loop, bodiesOpt_cons_loop, ih]
          simp [Bool.and_assoc]
      | output =>
          rw [List.cons_append, bodiesOpt_cons_other _ _ (by intro s h; cases h),
            bodiesOpt_cons_other _ _ (by intro s h; cases h), ih]
      | input =>
          rw [List.cons_append, bodiesOpt_cons_other _ _ (by intro s h; cases h),
            bodiesOpt_cons_other _ _ (by intro s h; cases h), ih]
      | move n =>
          rw [List.cons_append, bodiesOpt_cons_other _ _ (by intro s h; cases h),
            bodiesOpt_cons_other _ _ (by intro s h; cases h), ih]
      | incValue n =>
          rw [List.cons_append, bodiesOpt_cons_other _ _ (by intro s h; cases h),
            bodiesOpt_cons_other _ _ (by intro s h; cases h), ih]

theorem bodiesOpt_reverse (l : List Token) : bodiesOpt l.reverse = bodiesOpt l := by
  induction l with
  | nil => rfl
  | cons t l ih =>
      rw [List.reverse_cons, bodiesOpt_append, ih]
      cases t with
      | loop s =>
          rw [bodiesOpt_cons_loop, bodiesOpt_cons_loop]
          have hnil : bodiesOpt ([] : List Token) = true := by simp [bodiesOpt]
          rw [hnil]
          cases noMerge s <;> cases bodiesOpt s <;> cases bodiesOpt l <;> simp
      | output =>
          rw [bodiesOpt_cons_other _ _ (by intro s h; cases h)]
          simp [bodiesOpt]
      | input =>
          rw [bodiesOpt_cons_other _ _ (by intro s h; cases h)]
          simp [bodiesOpt]
      | move n =>
          rw [bodiesOpt_cons_other _ _ (by intro s h; cases h)]
          simp [bodiesOpt]
      | incValue n =>
          rw [bodiesOpt_cons_other _ _ (by intro s h; cases h)]
          simp [bodiesOpt]

theorem push_no_merge (t : Token) (acc : List Token)
    (hni : ∀ n accRest v, acc = Token.incValue n :: accRest
      → t = Token.incValue v → False)
    (hnm : ∀ n accRest v, acc = Token.move n :: accRest
      → t = Token.move v → False) :
    ∀ a accRest, acc = a :: accRest → mergeable a t = false := by
  intro a accRest hacc
  subst hacc
  cases a with
  | incValue n =>
      cases t with
      | incValue v => exact ((hni n accRest v rfl rfl)).elim
      | output => rfl
      | input => rfl
      | move v => rfl
      | loop s => rfl
  | move n =>
      cases t with
      | move v => exact ((hnm n accRest v rfl rfl)).elim
      | output => rfl
      | input => rfl
      | incValue v => rfl
      | loop s => rfl
  | output => cases t <;> rfl
  | input => cases t <;> rfl
  | loop s => cases t <;> rfl

theorem star_inLoop (a b : List Token) (h : Relation.ReflTransGen MStep a b)
    (A B : List Token) :
    Relation.ReflTransGen MStep (A ++ Token.loop a :: B) (A ++ Token.loop b :: B) := by
  induction h with
  | refl => exact Relation.ReflTransGen.refl
  | tail _ hstep ih =>
      exact Relation.ReflTransGen.tail ih (MStep.inLoop A B _ _ hstep)

theorem optGo_star (ts acc : List Token) :
    Relation.ReflTransGen MStep (acc.reverse ++ ts) (optGo ts acc).reverse := by
  induction ts, acc using optGo.induct with
  | case1 acc =>
      rw [optGo_nil, List.append_nil]
  | case2 sub rest acc ih1 ih2 =>
      rw [optGo_loop]
      have h1 : Relation.ReflTransGen MStep sub (optGo sub []).reverse := by
        simpa using ih1
      have h2 := star_inLoop _ _ h1 acc.reverse rest
      refine Relation.ReflTransGen.trans h2 ?_
      have e : (Token.loop (optGo sub []).reverse :: acc).reverse ++ rest
          = acc.reverse ++ Token.loop (optGo sub []).reverse :: rest := by simp
      rw [e] at ih2
      exact ih2
  | case3 rest n accRest v _ ih =>
      rw [optGo_merge_inc]
      have e1 : (Token.incValue n :: accRest).reverse ++ Token.incValue v :: rest
          = accRest.reverse ++ Token.incValue n :: Token.incValue v :: rest := by simp
      have e2 : (Token.incValue (n + v) :: accRest).reverse ++ rest
          = accRest.reverse ++ Token.incValue (n + v) :: rest := by simp
      rw [e1]
      rw [e2] at ih
      exact Relation.ReflTransGen.head (MStep.inc accRest.reverse rest n v) ih
  | case4 rest n accRest v _ ih =>
      rw [optGo_merge_mv]
      have e1 : (Token.move n :: accRest).reverse ++ Token.move v :: rest
          = accRest.reverse ++ Token.move n :: Token.move v :: rest := by simp
      have e2 : (Token.move (n + v) :: accRest).reverse ++ rest
          = accRest.reverse ++ Token.move (n + v) :: rest := by simp
      rw [e1]
      rw [e2] at ih
      exact Relation.ReflTransGen.head (MStep.mv accRest.reverse rest n v) ih
  | case5 t rest acc hnl hni hnm ih =>
      rw [optGo_push t rest acc hnl (push_no_merge t acc hni hnm)]
      have e : (t :: acc).reverse ++ rest = acc.reverse ++ t :: rest := by simp
      rw [e] at ih
      exact ih

theorem skeleton_cons_out (l : List Token) :
    skeleton (Token.output :: l) = Skel.out :: skeleton l := by simp [skeleton]

theorem skeleton_cons_inp (l : List Token) :
    skeleton (Token.input :: l) = Skel.inp :: skeleton l := by simp [skeleton]

theorem skeleton_cons_loop (sub l : List Token) :
    skeleton (Token.loop sub :: l) = Skel.lp (skeleton sub) :: skeleton l := by
  simp [skeleton]

theorem skeleton_cons_move (n : Int) (l : List Token) :
    skeleton (Token.move n :: l) = skeleton l := by simp [skeleton]

theorem skeleton_cons_inc (n : Int) (l : List Token) :
    skeleton (Token.incValue n :: l) = skeleton l := by simp [skeleton]

theorem skeleton_append (l1 l2 : List Token) :
    skeleton (l1 ++ l2) = skeleton l1 ++ skeleton l2 := by
  induction l1 with
  | nil => simp [skeleton]
  | cons t l ih =>
      cases t with
      | output => rw [List.cons_append, skeleton_cons_out, skeleton_cons_out, ih]; rfl
      | input => rw [List.cons_append, skeleton_cons_inp, skeleton_cons_inp, ih]; rfl
      | loop s => rw [List.cons_append, skeleton_cons_loop, skeleton_cons_loop, ih]; rfl
      | move n => rw [List.cons_append, skeleton_cons_move, skeleton_cons_move, ih]
      | incValue n => rw [List.cons_append, skeleton_cons_inc, skeleton_cons_inc, ih]

theorem mstep_skeleton (a b : List Token) (h : MStep a b) :
    skeleton a = skeleton b := by
  induction h with
  | inc A B n v =>
      rw [skeleton_append, skeleton_append, skeleton_cons_inc, skeleton_cons_inc,
        skeleton_cons_inc]
  | mv A B n v =>
      rw [skeleton_append, skeleton_append, skeleton_cons_move, skeleton_cons_move,
        skeleton_cons_move]
  | inLoop A B sub sub' _ ih =>
      rw [skeleton_append, skeleton_append, skeleton_cons_loop, skeleton_cons_loop, ih]

theorem star_skeleton (a b : List Token)
    (h : Relation.ReflTransGen MStep a b) : skeleton a = skeleton b := by
  induction h with
  | refl => rfl
  | tail _ hstep ih => exact ih.trans (mstep_skeleton _ _ hstep)

/-- C7: the optimizer only performs adjacent-merge rewrites (it is
reachable from the input by a sequence of single `Move` / `IncValue`
folds, possibly inside loop bodies), and consequently preserves the
relative order and count of `Output` / `Input` / `Loop` instructions at
every nesting level. -/
theorem optimize_only_merges_preserves_skeleton (ts : List Token) :
    Relation.ReflTransGen MStep ts (optimize ts) ∧
    skeleton (optimize ts) = skeleton ts := by
  have h := optGo_star ts []
  simp only [List.reverse_nil, List.nil_append] at h
  rw [show (optGo ts []).reverse = optimize ts from rfl] at h
  exact ⟨h, (star_skeleton _ _ h).symm⟩

theorem optGo_inv (ts acc : List Token) :
    noMerge acc = true → bodiesOpt acc = true →
    noMerge (optGo ts acc) = true ∧ bodiesOpt (optGo ts acc) = true := by
  induction ts, acc using optGo.induct with
  | case1 acc =>
      intro h1 h2
      rw [optGo_nil]
      exact ⟨h1, h2⟩
  | case2 sub rest acc ih1 ih2 =>
      intro h1 h2
      rw [optGo_loop]
      have hbnil : bodiesOpt ([] : List Token) = true := by simp [bodiesOpt]
      have hsub := ih1 rfl hbnil
      apply ih2
      · apply noMerge_cons_of
        · intro a l2 _
          rw [mergeable_loop_left]
        · exact h1
      · rw [bodiesOpt_cons_loop, noMerge_reverse, bodiesOpt_reverse]
        simp [hsub.1, hsub.2, h2]
  | case3 rest n accRest v _ ih =>
      intro h1 h2
      rw [optGo_merge_inc]
      apply ih
      · apply noMerge_cons_of
        · intro a l2 hacc
          have hh := noMerge_head _ _ _ (show noMerge (Token.incValue n :: a :: l2) = true
            from hacc ▸ h1)
          rw [mergeable_inc_left (n + v) n]
          exact hh
        · exact noMerge_tail _ _ h1
      · rw [bodiesOpt_cons_other _ _ (by intro s h; cases h)]
        rw [bodiesOpt_cons_other _ _ (by intro s h; cases h)] at h2
        exact h2
  | case4 rest n accRest v _ ih =>
      intro h1 h2
      rw [optGo_merge_mv]
      apply ih
      · apply noMerge_cons_of
        · intro a l2 hacc
          have hh := noMerge_head _ _ _ (show noMerge (Token.move n :: a :: l2) = true
            from hacc ▸ h1)
          rw [mergeable_move_left (n + v) n]
          exact hh
        · exact noMerge_tail _ _ h1
      · rw [bodiesOpt_cons_other _ _ (by intro s h; cases h)]
        rw [bodiesOpt_cons_other _ _ (by intro s h; cases h)] at h2
        exact h2
  | case5 t rest acc hnl hni hnm ih =>
      intro h1 h2
      rw [optGo_push t rest acc hnl (push_no_merge t acc hni hnm)]
      apply ih
      · apply noMerge_cons_of
        · intro a l2 hacc
          rw [mergeable_symm]
          exact push_no_merge t acc hni hnm a l2 hacc
        · exact h1
      · rw [bodiesOpt_cons_other _ _ hnl]
        exact h2

theorem optGo_fixed (ts acc : List Token) :
    noMerge ts = true → bodiesOpt ts = true →
    (∀ a accRest t rest2, acc = a :: accRest → ts = t :: rest2
      → mergeable a t = false) →
    optGo ts acc = ts.reverse ++ acc := by
  induction ts, acc using optGo.induct with
  | case1 acc =>
      intro _ _ _
      rw [optGo_nil]
      simp
  | case2 sub rest acc ih1 ih2 =>
      intro h1 h2 _
      rw [bodiesOpt_cons_loop] at h2
      simp only [Bool.and_eq_true] at h2
      have hsub : optGo sub [] = sub.reverse ++ [] := by
        apply ih1 h2.1.1 h2.1.2
        intro a accRest t rest2 ha _
        cases ha
      have hsub' : (optGo sub []).reverse = sub := by
        rw [hsub]
        simp
      rw [optGo_loop, hsub']
      rw [hsub'] at ih2
      rw [ih2 (noMerge_tail _ _ h1) h2.2 ?_]
      · simp
      · intro a accRest t rest2 ha _
        cases ha
        rw [mergeable_loop_left]
  | case3 rest n accRest v _ _ =>
      intro _ _ h3
      exact absurd (h3 _ _ _ _ rfl rfl) (by simp [mergeable])
  | case4 rest n accRest v _ _ =>
      intro _ _ h3
      exact absurd (h3 _ _ _ _ rfl rfl) (by simp [mergeable])
  | case5 t rest acc hnl hni hnm ih =>
      intro h1 h2 _
      rw [optGo_push t rest acc hnl (push_no_merge t acc hni hnm)]
      rw [bodiesOpt_cons_other _ _ hnl] at h2
      rw [ih (noMerge_tail _ _ h1) h2 ?_]
      · simp
      · intro a accRest2 t2 rest2 ha ht
        cases ha
        subst ht
        exact noMerge_head _ _ _ h1

/-- C6: the optimizer is idempotent — a second pass folds nothing more,
at any nesting level. -/
theorem optimize_idempotent (ts : List Token) :
    optimize (optimize ts) = optimize ts := by
  have hbnil : bodiesOpt ([] : List Token) = true := by simp [bodiesOpt]
  have h := optGo_inv ts [] rfl hbnil
  have hnm : noMerge (optimize ts) = true := by
    show noMerge (optGo ts []).reverse = true
    rw [noMerge_reverse]
    exact h.1
  have hbo : bodiesOpt (optimize ts) = true := by
    show bodiesOpt (optGo ts []).reverse = true
    rw [bodiesOpt_reverse]
    exact h.2
  show (optGo (optimize ts) []).reverse = optimize ts
  rw [optGo_fixed (optimize ts) [] hnm hbo
    (by intro a accRest t rest2 ha _; cases ha)]
  simp

theorem kinds_cons (t : Token) (l : List Token) :
    kinds (t :: l) = kindOf t :: kinds l := by
  cases t <;> simp [kinds, kindOf]

theorem kinds_append (l1 l2 : List Token) :
    kinds (l1 ++ l2) = kinds l1 ++ kinds l2 := by
  induction l1 with
  | nil => simp [kinds]
  | cons t l ih => rw [List.cons_append, kinds_cons, kinds_cons, ih, List.cons_append]

theorem dupK_lp_left (s : List Kind) (x : Kind) : dupK (Kind.kLp s) x = false := by
  cases x <;> rfl

theorem dupK_lp_right (x : Kind) (s : List Kind) : dupK x (Kind.kLp s) = false := by
  cases x <;> rfl

theorem dupK_kindOf (t1 t2 : Token) :
    dupK (kindOf t1) (kindOf t2) = mergeable t1 t2 := by
  cases t1 <;> cases t2 <;> rfl

theorem squeezeL_single (k : Kind) : squeezeL [k] = [squeezeK k] := by
  simp [squeezeL]

theorem squeezeL_cons2 (k1 k2 : Kind) (rest : List Kind) :
    squeezeL (k1 :: k2 :: rest)
      = if dupK k1 k2 then squeezeL (k2 :: rest)
        else squeezeK k1 :: squeezeL (k2 :: rest) := by
  simp [squeezeL]

theorem squeezeK_lp (b : List Kind) :
    squeezeK (Kind.kLp b) = Kind.kLp (squeezeL b) := by
  simp [squeezeK]

theorem squeezeL_dup (k : Kind) (hk : dupK k k = true) (A B : List Kind) :
    squeezeL (A ++ k :: k :: B) = squeezeL (A ++ k :: B) := by
  induction A with
  | nil =>
      rw [List.nil_append, List.nil_append, squeezeL_cons2, if_pos hk]
  | cons a A ih =>
      cases A with
      | nil =>
          show squeezeL (a :: k :: k :: B) = squeezeL (a :: k :: B)
          have hkk : squeezeL (k :: k :: B) = squeezeL (k :: B) := by
            rw [squeezeL_cons2, if_pos hk]
          rw [squeezeL_cons2, hkk, ← squeezeL_cons2]
      | cons a2 A2 =>
          show squeezeL (a :: a2 :: (A2 ++ k :: k :: B))
            = squeezeL (a :: a2 :: (A2 ++ k :: B))
          rw [squeezeL_cons2, squeezeL_cons2,
            show squeezeL (a2 :: (A2 ++ k :: k :: B))
              = squeezeL (a2 :: (A2 ++ k :: B)) from ih]

theorem squeezeL_loop_cong (s s' : List Kind) (h : squeezeL s = squeezeL s')
    (A B : List Kind) :
    squeezeL (A ++ Kind.kLp s :: B) = squeezeL (A ++ Kind.kLp s' :: B) := by
  induction A with
  | nil =>
      cases B with
      | nil =>
          rw [List.nil_append, List.nil_append, squeezeL_single, squeezeL_single,
            squeezeK_lp, squeezeK_lp, h]
      | cons b B2 =>
          rw [List.nil_append, List.nil_append, squeezeL_cons2, squeezeL_cons2,
            dupK_lp_left, dupK_lp_left]
          simp [squeezeK_lp, h]
  | cons a A ih =>
      cases A with
      | nil =>
          show squeezeL (a :: Kind.kLp s :: B) = squeezeL (a :: Kind.kLp s' :: B)
          rw [squeezeL_cons2, squeezeL_cons2, dupK_lp_right, dupK_lp_right]
          have hih : squeezeL (Kind.kLp s :: B) = squeezeL (Kind.kLp s' :: B) := by
            simpa using ih
          simp [hih]
      | cons a2 A2 =>
          show squeezeL (a :: a2 :: (A2 ++ Kind.kLp s :: B))
            = squeezeL (a :: a2 :: (A2 ++ Kind.kLp s' :: B))
          rw [squeezeL_cons2, squeezeL_cons2,
            show squeezeL (a2 :: (A2 ++ Kind.kLp s :: B))
              = squeezeL (a2 :: (A2 ++ Kind.kLp s' :: B)) from ih]

theorem mstep_squeeze (a b : List Token) (h : MStep a b) :
    squeezeL (kinds a) = squeezeL (kinds b) := by
  induction h with
  | inc A B n v =>
      rw [kinds_append, kinds_append, kinds_cons, kinds_cons, kinds_cons]
      exact squeezeL_dup Kind.kInc rfl (kinds A) (kinds B)
  | mv A B n v =>
      rw [kinds_append, kinds_append, kinds_cons, kinds_cons, kinds_cons]
      exact squeezeL_dup Kind.kMv rfl (kinds A) (kinds B)
  | inLoop A B sub sub' _ ih =>
      rw [kinds_append, kinds_append, kinds_cons, kinds_cons]
      exact squeezeL_loop_cong _ _ ih (kinds A) (kinds B)

theorem star_squeeze (a b : List Token)
    (h : Relation.ReflTransGen MStep a b) :
    squeezeL (kinds a) = squeezeL (kinds b) := by
  induction h with
  | refl => rfl
  | tail _ hstep ih => exact ih.trans (mstep_squeeze _ _ hstep)

theorem squeezeK_nonloop (t : Token) (h : ∀ s, t ≠ Token.loop s) :
    squeezeK (kindOf t) = kindOf t := by
  cases t with
  | loop s => exact (h s rfl).elim
  | output =>
      show squeezeK Kind.kOut = Kind.kOut
      simp [squeezeK]
  | input =>
      show squeezeK Kind.kInp = Kind.kInp
      simp [squeezeK]
  | move n =>
      show squeezeK Kind.kMv = Kind.kMv
      simp [squeezeK]
  | incValue n =>
      show squeezeK Kind.kInc = Kind.kInc
      simp [squeezeK]

theorem squeeze_of_opt (l : List Token) :
    noMerge l = true → bodiesOpt l = true → squeezeL (kinds l) = kinds l := by
  induction l using kinds.induct with
  | case1 =>
      intro _ _
      simp [kinds, squeezeL]
  | case2 rest ih =>
      intro h1 h2
      rw [kinds_cons]
      cases rest with
      | nil =>
          rw [show kinds ([] : List Token) = [] from by simp [kinds], squeezeL_single,
            squeezeK_nonloop Token.output (by intro s h; cases h)]
      | cons t2 rest2 =>
          rw [kinds_cons, squeezeL_cons2]
          have hd : dupK (kindOf Token.output) (kindOf t2) = false := by
            rw [dupK_kindOf]
            exact noMerge_head _ _ _ h1
          rw [hd]
          have hih := ih (noMerge_tail _ _ h1)
            (by rw [bodiesOpt_cons_other _ _ (by intro s h; cases h)] at h2; exact h2)
          rw [kinds_cons] at hih
          simp [hih, squeezeK_nonloop Token.output (by intro s h; cases h)]
  | case3 rest ih =>
      intro h1 h2
      rw [kinds_cons]
      cases rest with
      | nil =>
          rw [show kinds ([] : List Token) = [] from by simp [kinds], squeezeL_single,
            squeezeK_nonloop Token.input (by intro s h; cases h)]
      | cons t2 rest2 =>
          rw [kinds_cons, squeezeL_cons2]
          have hd : dupK (kindOf Token.input) (kindOf t2) = false := by
            rw [dupK_kindOf]
            exact noMerge_head _ _ _ h1
          rw [hd]
          have hih := ih (noMerge_tail _ _ h1)
            (by rw [bodiesOpt_cons_other _ _ (by intro s h; cases h)] at h2; exact h2)
          rw [kinds_cons] at hih
          simp [hih, squeezeK_nonloop Token.input (by intro s h; cases h)]
  | case4 n rest ih =>
      intro h1 h2
      rw [kinds_cons]
      cases rest with
      | nil =>
          rw [show kinds ([] : List Token) = [] from by simp [kinds], squeezeL_single,
            squeezeK_nonloop (Token.move n) (by intro s h; cases h)]
      | cons t2 rest2 =>
          rw [kinds_cons, squeezeL_cons2]
          have hd : dupK (kindOf (Token.move n)) (kindOf t2) = false := by
            rw [dupK_kindOf]
            exact noMerge_head _ _ _ h1
          rw [hd]
          have hih := ih (noMerge_tail _ _ h1)
            (by rw [bodiesOpt_cons_other _ _ (by intro s h; cases h)] at h2; exact h2)
          rw [kinds_cons] at hih
          simp [hih, squeezeK_nonloop (Token.move n) (by intro s h; cases h)]
  | case5 n rest ih =>
      intro h1 h2
      rw [kinds_cons]
      cases rest with
      | nil =>
          rw [show kinds ([] : List Token) = [] from by simp [kinds], squeezeL_single,
            squeezeK_nonloop (Token.incValue n) (by intro s h; cases h)]
      | cons t2 rest2 =>
          rw [kinds_cons, squeezeL_cons2]
          have hd : dupK (kindOf (Token.incValue n)) (kindOf t2) = false := by
            rw [dupK_kindOf]
            exact noMerge_head _ _ _ h1
          rw [hd]
          have hih := ih (noMerge_tail _ _ h1)
            (by rw [bodiesOpt_cons_other _ _ (by intro s h; cases h)] at h2; exact h2)
          rw [kinds_cons] at hih
          simp [hih, squeezeK_nonloop (Token.incValue n) (by intro s h; cases h)]
  | case6 sub rest ihsub ih =>
      intro h1 h2
      rw [bodiesOpt_cons_loop] at h2
      simp only [Bool.and_eq_true] at h2
      have hsub := ihsub h2.1.1 h2.1.2
      have hsk : squeezeK (kindOf (Token.loop sub)) = kindOf (Token.loop sub) := by
        show squeezeK (Kind.kLp (kinds sub)) = Kind.kLp (kinds sub)
        rw [squeezeK_lp, hsub]
      rw [kinds_cons]
      cases rest with
      | nil =>
          rw [show kinds ([] : List Token) = [] from by simp [kinds], squeezeL_single,
            hsk]
      | cons t2 rest2 =>
          rw [kinds_cons, squeezeL_cons2]
          have hd : dupK (kindOf (Token.loop sub)) (kindOf t2) = false := by
            rw [dupK_kindOf]
            exact noMerge_head _ _ _ h1
          rw [hd]
          have hih := ih (noMerge_tail _ _ h1) h2.2
          rw [kinds_cons] at hih
          simp [hih, hsk]

/-- C8: the optimizer never drops an instruction — each maximal adjacent
run of `Move` (resp. `IncValue`) instructions in the input yields exactly
one instruction of that kind in the output (the kind sequence of the
output is that of the input with runs collapsed to single markers), even when
the magnitudes of the run sum to zero: folding `Move(1) Move(-1)` leaves a
`Move(0)` in the tree, and likewise for `IncValue`. -/
theorem optimize_keeps_zero_folds :
    (∀ ts, kinds (optimize ts) = squeezeL (kinds ts)) ∧
    optimize [Token.move 1, Token.move (-1)] = [Token.move 0] ∧
    optimize [Token.incValue 2, Token.incValue (-2)] = [Token.incValue 0] := by
  refine ⟨?_, ?_, ?_⟩
  · intro ts
    have hbnil : bodiesOpt ([] : List Token) = true := by simp [bodiesOpt]
    have hinv := optGo_inv ts [] rfl hbnil
    have hnm : noMerge (optimize ts) = true := by
      show noMerge (optGo ts []).reverse = true
      rw [noMerge_reverse]
      exact hinv.1
    have hbo : bodiesOpt (optimize ts) = true := by
      show bodiesOpt (optGo ts []).reverse = true
      rw [bodiesOpt_reverse]
      exact hinv.2
    have h1 := squeeze_of_opt (optimize ts) hnm hbo
    have hstar := optGo_star ts []
    simp only [List.reverse_nil, List.nil_append] at hstar
    rw [show (optGo ts []).reverse = optimize ts from rfl] at hstar
    have h2 := star_squeeze _ _ hstar
    rw [h2]
    exact h1.symm
  · show (optGo [Token.move 1, Token.move (-1)] []).reverse = _
    rw [optGo_push (Token.move 1) [Token.move (-1)] []
      (by intro s h; cases h) (by intro a r h; cases h)]
    rw [optGo_merge_mv, optGo_nil]
    norm_num
  · show (optGo [Token.incValue 2, Token.incValue (-2)] []).reverse = _
    rw [optGo_push (Token.incValue 2) [Token.incValue (-2)] []
      (by intro s h; cases h) (by intro a r h; cases h)]
    rw [optGo_merge_inc, optGo_nil]
    norm_num
